import Mathlib

/-!
Verification of the response-formatting pipeline of `koti.py`.

The program's core is `format_gemini_response`, which converts the raw text
returned by a generative API into HTML and extracts an optional credibility
score.  Strings are modelled as `List Char`; each Python regular-expression
operation used by the code is embedded as an explicit scanning function with
the exact backtracking semantics of the pattern in question (`.` does not
match a newline unless the call passes `re.DOTALL`).
-/

set_option maxRecDepth 100000

namespace Koti

/-- Python's `\s` character class (ASCII range), also used by `str.strip`. -/
def isSpace (c : Char) : Bool :=
  c == ' ' || c == '\t' || c == '\n' || c == '\r' || c == '\x0b' || c == '\x0c'

/-- `str.strip()`: drop whitespace from both ends. -/
def stripWs (cs : List Char) : List Char :=
  ((cs.dropWhile isSpace).reverse.dropWhile isSpace).reverse

/-! ### Score extraction

`re.search(r'(?:Overall Credibility Score|Credibility Score).*?(\d+)/10',
text, re.IGNORECASE)` followed by `int(match.group(1))`.
No `re.DOTALL`: the `.*?` part cannot cross a newline. -/

/-- First alternative of the label group, lowercased. -/
def ovcLabel : List Char := "overall credibility score".toList

/-- Second alternative of the label group, lowercased. -/
def csLabel : List Char := "credibility score".toList

/-- Case-insensitive literal match of `pat` (given lowercased) against a
prefix of `cs`, as `re.IGNORECASE` does for ASCII literals. -/
def matchCI : List Char → List Char → Bool
  | [], _ => true
  | _ :: _, [] => false
  | p :: ps, c :: cs => if c.toLower = p then matchCI ps cs else false

/-- `int()` of a digit string. -/
def digitsToNat (ds : List Char) : Nat :=
  ds.foldl (fun a c => a * 10 + (c.toNat - 48)) 0

/-- Scan for the `.*?(\d+)/10` part of the score pattern: walk forward one
character at a time (never across a newline, since `.` and `\d` do not match
`\n`); at a digit, `\d+` greedily takes the maximal digit run and `/10` must
follow it (backtracking into the run cannot succeed because the character
after a shorter run is still a digit). -/
def scanNum : List Char → Option Nat
  | [] => none
  | c :: cs =>
    if c = '\n' then none
    else if c.isDigit then
      match cs.dropWhile Char.isDigit with
      | '/' :: '1' :: '0' :: _ => some (digitsToNat (c :: cs.takeWhile Char.isDigit))
      | _ => scanNum cs
    else scanNum cs

/-- Attempt the whole score pattern at the current position: one of the two
label alternatives (they cannot both match, their first letters differ),
then `scanNum` on the rest. -/
def tryHere (cs : List Char) : Option Nat :=
  match (if matchCI ovcLabel cs then scanNum (cs.drop ovcLabel.length) else none) with
  | some n => some n
  | none => if matchCI csLabel cs then scanNum (cs.drop csLabel.length) else none

/-- `re.search` semantics: try the pattern at every position left to right
and return the first success. -/
def scoreSearch : List Char → Option Nat
  | [] => none
  | c :: cs =>
    match tryHere (c :: cs) with
    | some n => some n
    | none => scoreSearch cs

/-! ### Section splitting

`re.split(r'\n(?=\d+\.\s+\*\*|\#{1,3}\s+)', text)`. -/

/-- Lookahead alternative `\d+\.\s+\*\*`: a maximal digit run, a dot, a
nonempty maximal whitespace run, then `**`. -/
def numberedMarker (cs : List Char) : Bool :=
  !(cs.takeWhile Char.isDigit).isEmpty &&
  match cs.dropWhile Char.isDigit with
  | '.' :: r2 =>
    !(r2.takeWhile isSpace).isEmpty &&
    (match r2.dropWhile isSpace with
     | '*' :: '*' :: _ => true
     | _ => false)
  | _ => false

/-- Lookahead alternative `\#{1,3}\s+`: one to three `#` characters followed
by a whitespace character (a fourth `#` defeats all three retries). -/
def hashMarker (cs : List Char) : Bool :=
  let hs := cs.takeWhile (· == '#')
  decide (1 ≤ hs.length) && decide (hs.length ≤ 3) &&
  match cs.dropWhile (· == '#') with
  | c :: _ => isSpace c
  | [] => false

/-- Split immediately after any newline that is followed by a section
marker; the newline itself is consumed by the split. -/
def splitSecs : List Char → List (List Char)
  | [] => [[]]
  | c :: cs =>
    if c == '\n' && (numberedMarker cs || hashMarker cs) then
      [] :: splitSecs cs
    else
      match splitSecs cs with
      | [] => [[c]]
      | s :: ss => (c :: s) :: ss

/-! ### Section heading match

`re.match(r'(\d+)\.\s+\*\*(.+?)\*\*:?\s*(.*)', section, re.DOTALL)`. -/

/-- Earliest occurrence of `**` in the list; returns the characters before
it and the rest after it. -/
def findSS : List Char → Option (List Char × List Char)
  | '*' :: '*' :: rest => some ([], rest)
  | c :: rest => (findSS rest).map (fun p => (c :: p.1, p.2))
  | [] => none

/-- The three capture groups of the heading pattern. -/
structure SecParts where
  num : List Char
  title : List Char
  content : List Char
deriving DecidableEq, Repr

/-- Anchored match of the heading pattern: digit run, dot, nonempty
whitespace run, `**`, shortest nonempty title up to the next `**` (with
`re.DOTALL` its characters may include newlines), an optional colon, then
the remainder with its maximal leading whitespace run removed. -/
def matchSection (cs : List Char) : Option SecParts :=
  let ds := cs.takeWhile Char.isDigit
  if ds.isEmpty then none else
  match cs.dropWhile Char.isDigit with
  | '.' :: r2 =>
    if (r2.takeWhile isSpace).isEmpty then none else
    (match r2.dropWhile isSpace with
     | '*' :: '*' :: r3 =>
       match r3 with
       | [] => none
       | c :: r4 =>
         match findSS r4 with
         | none => none
         | some (t, r5) =>
           let r6 := match r5 with
             | ':' :: r7 => r7
             | _ => r5
           some ⟨ds, c :: t, r6.dropWhile isSpace⟩
     | _ => none)
  | _ => none

/-! ### Inline emphasis

`re.sub(r'\*\*(.+?)\*\*', r'<strong>\1</strong>', content)` and then
`re.sub(r'\*(.+?)\*', r'<em>\1</em>', content)`; no `re.DOTALL`, so the
group cannot contain a newline. -/

/-- Earliest `**` preceded only by non-newline characters. -/
def findSSnn : List Char → Option (List Char × List Char)
  | '*' :: '*' :: rest => some ([], rest)
  | c :: rest => if c = '\n' then none else (findSSnn rest).map (fun p => (c :: p.1, p.2))
  | [] => none

/-- `(.+?)\*\*` after an opening `**`: at least one non-newline character,
then the earliest closing `**`. -/
def boldClose : List Char → Option (List Char × List Char)
  | [] => none
  | c :: rest => if c = '\n' then none else (findSSnn rest).map (fun p => (c :: p.1, p.2))

/-- Earliest `*` preceded only by non-newline characters. -/
def findSnn : List Char → Option (List Char × List Char)
  | '*' :: rest => some ([], rest)
  | c :: rest => if c = '\n' then none else (findSnn rest).map (fun p => (c :: p.1, p.2))
  | [] => none

/-- `(.+?)\*` after an opening `*`. -/
def italClose : List Char → Option (List Char × List Char)
  | [] => none
  | c :: rest => if c = '\n' then none else (findSnn rest).map (fun p => (c :: p.1, p.2))

def strongOpen : List Char := "<strong>".toList

def strongClose : List Char := "</strong>".toList

def emOpen : List Char := "<em>".toList

def emClose : List Char := "</em>".toList

/-- The double-marker substitution, structurally recursive on a fuel
argument: every recursive call passes a strictly shorter list together with
the fuel decreased by one, so running `subBoldAux` with fuel equal to the
length of the list never exhausts the fuel. -/
def subBoldAux : Nat → List Char → List Char
  | 0, cs => cs
  | _ + 1, [] => []
  | fuel + 1, c :: rest =>
    if c = '*' then
      match rest with
      | '*' :: r2 =>
        (match boldClose r2 with
         | some p => strongOpen ++ p.1 ++ strongClose ++ subBoldAux fuel p.2
         | none => c :: subBoldAux fuel rest)
      | _ => c :: subBoldAux fuel rest
    else c :: subBoldAux fuel rest

/-- `re.sub(r'\*\*(.+?)\*\*', r'<strong>\1</strong>', content)`: replace
each non-overlapping leftmost match, leave a failed opening in place and
resume the scan one character later. -/
def subBold (cs : List Char) : List Char := subBoldAux cs.length cs

/-- The single-marker substitution, with the same fuel discipline as
`subBoldAux`. -/
def subItalicAux : Nat → List Char → List Char
  | 0, cs => cs
  | _ + 1, [] => []
  | fuel + 1, c :: rest =>
    if c = '*' then
      (match italClose rest with
       | some p => emOpen ++ p.1 ++ emClose ++ subItalicAux fuel p.2
       | none => c :: subItalicAux fuel rest)
    else c :: subItalicAux fuel rest

/-- `re.sub(r'\*(.+?)\*', r'<em>\1</em>', content)`, run after `subBold`. -/
def subItalic (cs : List Char) : List Char := subItalicAux cs.length cs

/-! ### Bullet detection and the line walk -/

/-- The bullet "glyph" of the source file is literally the three-character
mojibake sequence U+201A U+00C4 U+00A2 (the UTF-8 bytes of U+2022 decoded
as Windows-1252). -/
def gl1 : Char := Char.ofNat 0x201A

def gl2 : Char := Char.ofNat 0xC4

def gl3 : Char := Char.ofNat 0xA2

/-- Substring test for the three-character glyph. -/
def hasGlyph : List Char → Bool
  | c1 :: c2 :: c3 :: rest =>
    (c1 == gl1 && c2 == gl2 && c3 == gl3) || hasGlyph (c2 :: c3 :: rest)
  | _ => false

/-- `line.startswith` on the glyph. -/
def glyphStart : List Char → Bool
  | c1 :: c2 :: c3 :: _ => c1 == gl1 && c2 == gl2 && c3 == gl3
  | _ => false

/-- `re.search(r'^\s*-\s+', content, re.MULTILINE)`: some `-` that is
preceded only by whitespace since the last line start and is followed by a
whitespace character.  The boolean argument records whether everything seen
since the last line start was whitespace. -/
def hyphenWsAt : Bool → List Char → Bool
  | _, [] => false
  | clean, c :: cs =>
    if clean && c == '-' then
      (match cs with
       | d :: _ => isSpace d
       | [] => false) || hyphenWsAt false cs
    else
      hyphenWsAt (if c == '\n' then true else clean && isSpace c) cs

/-- The character set of `line.lstrip('‚Ä¢- ')`. -/
def bulletChars : List Char := [gl1, gl2, gl3, '-', ' ']

/-- `lstrip` over the bullet character set. -/
def lstripBul (cs : List Char) : List Char :=
  cs.dropWhile (fun c => bulletChars.contains c)

/-- `line.startswith('‚Ä¢') or line.startswith('-')`. -/
def isBulletLine (l : List Char) : Bool :=
  glyphStart l ||
  match l with
  | '-' :: _ => true
  | _ => false

/-- `content.split('\n')`. -/
def splitNl : List Char → List (List Char)
  | [] => [[]]
  | c :: rest =>
    if c = '\n' then [] :: splitNl rest
    else
      match splitNl rest with
      | [] => [[c]]
      | s :: ss => (c :: s) :: ss

/-- `content.split('\n\n')` (non-overlapping leftmost). -/
def splitPar : List Char → List (List Char)
  | '\n' :: '\n' :: rest => [] :: splitPar rest
  | c :: rest =>
    (match splitPar rest with
     | [] => [[c]]
     | s :: ss => (c :: s) :: ss)
  | [] => [[]]

def ulOpen : List Char := "<ul class=\"analysis-list\">".toList

def ulClose : List Char := "</ul>".toList

def liElem (item : List Char) : List Char :=
  "<li>".toList ++ item ++ "</li>".toList

def pElem (t : List Char) : List Char :=
  "<p class=\"analysis-text\">".toList ++ t ++ "</p>".toList

def divOpen : List Char := "<div class=\"analysis-section\">".toList

def divClose : List Char := "</div>".toList

def h3Elem (num title : List Char) : List Char :=
  "<h3 class=\"section-title\"><span class=\"section-number\">".toList ++ num
    ++ "</span>".toList ++ title ++ "</h3>".toList

/-- The `for line in lines` loop of the bullet branch, with the `in_list`
flag; every line is stripped first, a bullet line opens or extends a list,
any other line closes an open list and becomes a paragraph if nonempty, and
a list still open at the end is closed. -/
def listWalk : Bool → List (List Char) → List (List Char)
  | inL, [] => if inL then [ulClose] else []
  | inL, l :: ls =>
    let line := stripWs l
    if isBulletLine line then
      let item := stripWs (lstripBul line)
      (if inL then [] else [ulOpen]) ++
      (if item.isEmpty then [] else [liElem item]) ++
      listWalk true ls
    else
      (if inL then [ulClose] else []) ++
      (if line.isEmpty then [] else [pElem line]) ++
      listWalk false ls

/-- Body rendering of the matched branch (source lines 95-125): strip,
emphasis substitution, then either the line walk (when a bullet indicator
is present) or paragraph splitting on blank-line boundaries. -/
def renderBody (raw : List Char) : List (List Char) :=
  let content := subItalic (subBold (stripWs raw))
  if hasGlyph content || hyphenWsAt true content then
    listWalk false (splitNl content)
  else
    (splitPar content).filterMap fun p =>
      let q := stripWs p
      if q.isEmpty then none else some (pElem q)

/-- Rendering of one candidate section (the body of the `for section`
loop, minus the outer skip of whitespace-only candidates): the matched
branch produces a container, a title and the rendered body; the unmatched
branch only applies emphasis substitution to the stripped candidate and
wraps the whole of it in a single paragraph element. -/
def renderSection (sec : List Char) : List (List Char) :=
  match matchSection sec with
  | some p => divOpen :: h3Elem p.num p.title :: (renderBody p.content ++ [divClose])
  | none =>
    let content := subItalic (subBold (stripWs sec))
    if content.isEmpty then [] else [pElem content]

/-- The whole `for section in sections` loop: whitespace-only candidates
are skipped, the rest are rendered in order. -/
def renderAll (secs : List (List Char)) : List (List Char) :=
  secs.foldr (fun sec acc =>
    (if (stripWs sec).isEmpty then [] else renderSection sec) ++ acc) []

/-- `format_gemini_response`: the pair of the joined markup fragments and
the independently extracted optional score. -/
def format_gemini_response (raw : List Char) : List Char × Option Nat :=
  ((renderAll (splitSecs raw)).foldr (· ++ ·) [], scoreSearch raw)

/-- A single quote character, used by the error fragment below. -/
def sq : Char := Char.ofNat 39

/-- The markup fragment built by the `except` branch of
`analyze_media_credibility`. -/
def errorFragment (e : List Char) : List Char :=
  "<p class=".toList ++ [sq] ++ "error".toList ++ [sq]
    ++ ">Error analyzing credibility: ".toList ++ e ++ "</p>".toList

/-- `analyze_media_credibility`: the remote call either returns raw text or
fails with an exception message; the failure is converted into an error
fragment with no score. -/
def analyze_media_credibility (resp : Except (List Char) (List Char)) :
    List Char × Option Nat :=
  match resp with
  | Except.ok t => format_gemini_response t
  | Except.error e => (errorFragment e, none)

/-- The apologetic message of the `except` branch of `chat_with_ai`. -/
def sorryMsg (e : List Char) : List Char :=
  "Sorry, I encountered an error: ".toList ++ e

/-- `chat_with_ai`: the remote call either returns the answer text, passed
through unchanged, or fails; the failure is converted into the apologetic
message. -/
def chat_with_ai (resp : Except (List Char) (List Char)) : List Char :=
  match resp with
  | Except.ok t => t
  | Except.error e => sorryMsg e

/-- `lab` is a case-insensitive occurrence of the (lowercased) label `pat`:
it has the label's exact length and matches it character by character up to
lowercasing, as `re.IGNORECASE` treats an ASCII literal. -/
abbrev isCaseVariant (pat lab : List Char) : Prop :=
  matchCI pat lab = true ∧ lab.length = pat.length

/-! ### Lemmas about the score scan -/

theorem matchCI_le_length {pat cs : List Char} (h : matchCI pat cs = true) :
    pat.length ≤ cs.length := by
  induction pat generalizing cs with
  | nil => simp
  | cons p ps ih =>
    cases cs with
    | nil => simp [matchCI] at h
    | cons c cs' =>
      rw [matchCI] at h
      by_cases hc : c.toLower = p
      · rw [if_pos hc] at h
        have := ih h
        simp only [List.length_cons]
        omega
      · rw [if_neg hc] at h
        exact absurd h (by simp)

theorem matchCI_append_left {pat cs : List Char} (t : List Char)
    (h : pat.length ≤ cs.length) : matchCI pat (cs ++ t) = matchCI pat cs := by
  induction pat generalizing cs with
  | nil => simp [matchCI]
  | cons p ps ih =>
    cases cs with
    | nil => simp at h
    | cons c cs' =>
      rw [List.cons_append, matchCI, matchCI]
      by_cases hc : c.toLower = p
      · rw [if_pos hc, if_pos hc]
        exact ih (by simpa using h)
      · rw [if_neg hc, if_neg hc]

theorem matchCI_append_true {pat cs : List Char} (t : List Char)
    (h : matchCI pat cs = true) : matchCI pat (cs ++ t) = true := by
  rw [matchCI_append_left t (matchCI_le_length h)]
  exact h

theorem matchCI_toLower_mem {pat s t : List Char} (h : matchCI pat (s ++ t) = true)
    (hl : s.length ≤ pat.length) : ∀ c ∈ s, c.toLower ∈ pat := by
  induction s generalizing pat with
  | nil => simp
  | cons c s' ih =>
    cases pat with
    | nil => simp at hl
    | cons p ps =>
      rw [List.cons_append, matchCI] at h
      by_cases hc : c.toLower = p
      · rw [if_pos hc] at h
        intro x hx
        rcases List.mem_cons.1 hx with hx | hx
        · subst hx
          simp [hc]
        · exact List.mem_cons_of_mem _ (ih h (by simpa using hl) x hx)
      · rw [if_neg hc] at h
        exact absurd h (by simp)

theorem matchCI_drop_true {pat s : List Char} (h : matchCI pat s = true) (k : Nat) :
    matchCI (pat.drop k) (s.drop k) = true := by
  induction k generalizing pat s with
  | zero => simpa using h
  | succ k ih =>
    cases pat with
    | nil => simp [matchCI]
    | cons p ps =>
      cases s with
      | nil => simp [matchCI] at h
      | cons c cs =>
        rw [matchCI] at h
        by_cases hc : c.toLower = p
        · rw [if_pos hc] at h
          simpa using ih h
        · rw [if_neg hc] at h
          exact absurd h (by simp)

theorem matchCI_heads {pat w : List Char} (h : matchCI pat w = true) (hp : pat ≠ []) :
    ∃ p pt c0 w', pat = p :: pt ∧ w = c0 :: w' ∧ c0.toLower = p := by
  cases pat with
  | nil => exact absurd rfl hp
  | cons p pt =>
    cases w with
    | nil => simp [matchCI] at h
    | cons c0 w' =>
      rw [matchCI] at h
      by_cases hc : c0.toLower = p
      · exact ⟨p, pt, c0, w', rfl, rfl, hc⟩
      · rw [if_neg hc] at h
        exact absurd h (by simp)

/-- An element that does not satisfy the predicate survives `dropWhile`. -/
theorem mem_dropWhile_of_not {a : Char} {l : List Char} {p : Char → Bool}
    (ha : a ∈ l) (hp : p a = false) : a ∈ l.dropWhile p := by
  induction l with
  | nil => simp at ha
  | cons c l' ih =>
    by_cases hc : p c
    · rw [List.dropWhile_cons_of_pos hc]
      rcases List.mem_cons.1 ha with h | h
      · subst h
        rw [hp] at hc
        exact absurd hc (by simp)
      · exact ih h
    · rw [List.dropWhile_cons_of_neg hc]
      exact ha

/-- A list whose non-digit tail is too short to hold `/10` defeats the
whole scan. -/
theorem scanNum_none_of_short {cs : List Char}
    (h : (cs.dropWhile Char.isDigit).length ≤ 2) : scanNum cs = none := by
  induction cs with
  | nil => rfl
  | cons c cs' ih =>
    rw [scanNum]
    by_cases hnl : c = '\n'
    · rw [if_pos hnl]
    · rw [if_neg hnl]
      by_cases hd : c.isDigit
      · rw [if_pos hd]
        have hdw : (cs'.dropWhile Char.isDigit).length ≤ 2 := by
          rwa [List.dropWhile_cons_of_pos hd] at h
        split
        · rename_i x heq
          rw [heq] at hdw
          simp at hdw
        · exact ih hdw
      · rw [if_neg hd]
        rw [List.dropWhile_cons_of_neg hd] at h
        have h1 : cs'.length ≤ 1 := by simpa using h
        have h2 := List.Sublist.length_le (List.dropWhile_sublist Char.isDigit (l := cs'))
        exact ih (by omega)

/-- A successful scan stays successful, with the same value, after any text
is appended. -/
theorem scanNum_append_some {xs t : List Char} {n : Nat}
    (h : scanNum xs = some n) : scanNum (xs ++ t) = some n := by
  induction xs with
  | nil => simp [scanNum] at h
  | cons c cs ih =>
    rw [scanNum] at h
    rw [List.cons_append, scanNum]
    by_cases hnl : c = '\n'
    · rw [if_pos hnl] at h
      exact absurd h (by simp)
    · rw [if_neg hnl] at h
      rw [if_neg hnl]
      by_cases hd : c.isDigit
      · rw [if_pos hd] at h
        rw [if_pos hd]
        split at h
        · rename_i x heq
          have hne : ¬ (cs.dropWhile Char.isDigit).isEmpty := by
            rw [heq]; simp
          have hdw : (cs ++ t).dropWhile Char.isDigit
              = '/' :: '1' :: '0' :: (x ++ t) := by
            rw [List.dropWhile_append, if_neg hne, heq]
            rfl
          have htw : (cs ++ t).takeWhile Char.isDigit = cs.takeWhile Char.isDigit := by
            have hlen : (cs.takeWhile Char.isDigit).length +
                (cs.dropWhile Char.isDigit).length = cs.length := by
              have h5 := congrArg List.length (List.takeWhile_append_dropWhile Char.isDigit cs)
              rw [List.length_append] at h5
              exact h5
            have hcond : ¬ (cs.takeWhile Char.isDigit).length = cs.length := by
              rw [heq] at hlen
              simp at hlen
              omega
            rw [List.takeWhile_append, if_neg hcond]
          rw [hdw, htw]
          exact h
        · rename_i hnsh
          have hih := ih h
          rw [List.dropWhile_append]
          by_cases hemp : (cs.dropWhile Char.isDigit).isEmpty
          · exfalso
            have : scanNum cs = none := by
              refine scanNum_none_of_short ?_
              rw [List.isEmpty_iff] at hemp
              simp [hemp]
            rw [this] at h
            exact absurd h (by simp)
          · rw [if_neg hemp]
            rcases hy : cs.dropWhile Char.isDigit with _ | ⟨y, ys⟩
            · rw [hy] at hemp; simp at hemp
            · split
              · rename_i x2 heq2
                rw [List.cons_append] at heq2
                obtain ⟨hy1, heq3⟩ := List.cons_eq_cons.1 heq2
                subst hy1
                rcases ys with _ | ⟨y2, ys2⟩
                · exfalso
                  have : scanNum cs = none :=
                    scanNum_none_of_short (by rw [hy]; simp)
                  rw [this] at h
                  exact absurd h (by simp)
                · rw [List.cons_append] at heq3
                  obtain ⟨hy2, heq4⟩ := List.cons_eq_cons.1 heq3
                  subst hy2
                  rcases ys2 with _ | ⟨y3, ys3⟩
                  · exfalso
                    have : scanNum cs = none :=
                      scanNum_none_of_short (by rw [hy]; simp)
                    rw [this] at h
                    exact absurd h (by simp)
                  · rw [List.cons_append] at heq4
                    obtain ⟨hy3, _⟩ := List.cons_eq_cons.1 heq4
                    subst hy3
                    exact absurd hy (hnsh ys3)
              · exact hih
      · rw [if_neg hd] at h
        rw [if_neg hd]
        exact ih h

/-- A scan defeated by a newline stays defeated after appending: the scan
only ever looks at characters up to the first newline. -/
theorem scanNum_append_none {xs t : List Char} (h : scanNum xs = none)
    (hnl : '\n' ∈ xs) : scanNum (xs ++ t) = none := by
  induction xs with
  | nil => simp at hnl
  | cons c cs ih =>
    rw [scanNum] at h
    rw [List.cons_append, scanNum]
    by_cases hc : c = '\n'
    · rw [if_pos hc]
    · rw [if_neg hc] at h
      rw [if_neg hc]
      have hnl' : '\n' ∈ cs := by
        rcases List.mem_cons.1 hnl with h1 | h1
        · exact absurd h1.symm hc
        · exact h1
      by_cases hd : c.isDigit
      · rw [if_pos hd] at h
        rw [if_pos hd]
        split at h
        · exact absurd h (by simp)
        · rename_i hnsh
          have hmem : '\n' ∈ cs.dropWhile Char.isDigit :=
            mem_dropWhile_of_not hnl' (by decide)
          rw [List.dropWhile_append]
          by_cases hemp : (cs.dropWhile Char.isDigit).isEmpty
          · rw [List.isEmpty_iff] at hemp
            rw [hemp] at hmem
            simp at hmem
          · rw [if_neg hemp]
            rcases hy : cs.dropWhile Char.isDigit with _ | ⟨y, ys⟩
            · rw [hy] at hemp; simp at hemp
            · split
              · rename_i x2 heq2
                rw [List.cons_append] at heq2
                obtain ⟨hy1, heq3⟩ := List.cons_eq_cons.1 heq2
                subst hy1
                rcases ys with _ | ⟨y2, ys2⟩
                · rw [hy] at hmem; simp at hmem
                · rw [List.cons_append] at heq3
                  obtain ⟨hy2, heq4⟩ := List.cons_eq_cons.1 heq3
                  subst hy2
                  rcases ys2 with _ | ⟨y3, ys3⟩
                  · rw [hy] at hmem; simp at hmem
                  · rw [List.cons_append] at heq4
                    obtain ⟨hy3, _⟩ := List.cons_eq_cons.1 heq4
                    subst hy3
                    exact absurd hy (hnsh ys3)
              · exact ih h hnl'
      · rw [if_neg hd] at h
        rw [if_neg hd]
        exact ih h hnl'

/-- If a digit run followed by `/10` occurs after a newline-free prefix,
the scan succeeds on something. -/
theorem scanNum_some_of_shape (a : List Char) {d : Char} (ds z : List Char)
    (ha : ∀ x ∈ a, x ≠ '\n') (hd : d.isDigit = true)
    (hds : ∀ x ∈ ds, x.isDigit = true) :
    ∃ m, scanNum (a ++ d :: (ds ++ '/' :: '1' :: '0' :: z)) = some m := by
  induction a with
  | nil =>
    rw [List.nil_append, scanNum]
    have hdnl : ¬ d = '\n' := by
      intro he
      rw [he] at hd
      simp at hd
    rw [if_neg hdnl, if_pos hd]
    have hdw : (ds ++ '/' :: '1' :: '0' :: z).dropWhile Char.isDigit
        = '/' :: '1' :: '0' :: z := by
      rw [List.dropWhile_append_of_pos hds, List.dropWhile_cons_of_neg (by decide)]
    rw [hdw]
    exact ⟨_, rfl⟩
  | cons c a' ih =>
    have hc : ¬ c = '\n' := ha c (List.mem_cons_self c a')
    have ih' := ih fun x hx => ha x (List.mem_cons_of_mem c hx)
    rw [List.cons_append, scanNum, if_neg hc]
    by_cases hcd : c.isDigit
    · rw [if_pos hcd]
      split
      · exact ⟨_, rfl⟩
      · exact ih'
    · rw [if_neg hcd]
      exact ih'

/-- A successful search decomposes the text into a prefix and the suffix
at which the pattern attempt succeeded; the attempt fails at every earlier
start position. -/
theorem scoreSearch_decomp {cs : List Char} {n : Nat}
    (h : scoreSearch cs = some n) :
    ∃ u v, cs = u ++ v ∧ tryHere v = some n ∧
      ∀ u' v', cs = u' ++ v' → u'.length < u.length → tryHere v' = none := by
  induction cs with
  | nil => simp [scoreSearch] at h
  | cons c cs' ih =>
    rw [scoreSearch] at h
    split at h
    · rename_i m heq
      obtain rfl := Option.some.inj h
      exact ⟨[], c :: cs', rfl, heq, fun u' v' _ hlt => absurd hlt (by simp)⟩
    · rename_i heq
      obtain ⟨u, v, huv, htv, hmin⟩ := ih h
      refine ⟨c :: u, v, by rw [huv, List.cons_append], htv, ?_⟩
      intro u' v' he hlt
      cases u' with
      | nil =>
        rw [List.nil_append] at he
        rw [← he]
        exact heq
      | cons c2 u'' =>
        rw [List.cons_append] at he
        obtain ⟨_, he2⟩ := List.cons_eq_cons.1 he
        exact hmin u'' v' he2 (by simpa using hlt)

/-- A successful scan exhibits a digit run followed by `/10` inside the
scanned text, after a newline-free skipped prefix, and its result is the
value of that digit run. -/
theorem scanNum_shape_of_some {ys : List Char} {m : Nat}
    (h : scanNum ys = some m) :
    ∃ a d ds z, ys = a ++ d :: (ds ++ '/' :: '1' :: '0' :: z)
      ∧ (∀ x ∈ a, x ≠ '\n') ∧ d.isDigit = true ∧ (∀ x ∈ ds, x.isDigit = true)
      ∧ m = digitsToNat (d :: ds) := by
  induction ys with
  | nil => simp [scanNum] at h
  | cons c cs ih =>
    rw [scanNum] at h
    by_cases hc : c = '\n'
    · rw [if_pos hc] at h
      exact absurd h (by simp)
    · rw [if_neg hc] at h
      by_cases hd : c.isDigit
      · rw [if_pos hd] at h
        split at h
        · rename_i x heq
          refine ⟨[], c, cs.takeWhile Char.isDigit, x, ?_, by simp, hd, ?_, ?_⟩
          · rw [List.nil_append, ← heq, List.takeWhile_append_dropWhile]
          · exact fun x hx => List.mem_takeWhile_imp hx
          · exact (Option.some.inj h).symm
        · obtain ⟨a, d, ds, z, hys, ha, hd2, hds, hv⟩ := ih h
          refine ⟨c :: a, d, ds, z, by rw [hys, List.cons_append], ?_, hd2, hds, hv⟩
          intro x hx
          rcases List.mem_cons.1 hx with hx | hx
          · subst hx; exact hc
          · exact ha x hx
      · rw [if_neg hd] at h
        obtain ⟨a, d, ds, z, hys, ha, hd2, hds, hv⟩ := ih h
        refine ⟨c :: a, d, ds, z, by rw [hys, List.cons_append], ?_, hd2, hds, hv⟩
        intro x hx
        rcases List.mem_cons.1 hx with hx | hx
        · subst hx; exact hc
        · exact ha x hx

theorem ovcLabel_len : ovcLabel.length = 25 := rfl

theorem csLabel_len : csLabel.length = 17 := rfl

/-- Case analysis of a successful pattern attempt. -/
theorem tryHere_some_cases {w : List Char} {m : Nat} (h : tryHere w = some m) :
    (matchCI ovcLabel w = true ∧ scanNum (w.drop ovcLabel.length) = some m) ∨
    (matchCI csLabel w = true ∧ scanNum (w.drop csLabel.length) = some m) := by
  rw [tryHere] at h
  by_cases h1 : matchCI ovcLabel w
  · rw [if_pos h1] at h
    cases h2 : scanNum (w.drop ovcLabel.length) with
    | some k =>
      rw [h2] at h
      obtain rfl := Option.some.inj h
      exact Or.inl ⟨h1, rfl⟩
    | none =>
      rw [h2] at h
      by_cases h3 : matchCI csLabel w
      · rw [if_pos h3] at h
        exact Or.inr ⟨h3, h⟩
      · rw [if_neg h3] at h
        exact absurd h (by simp)
  · rw [if_neg h1] at h
    by_cases h3 : matchCI csLabel w
    · rw [if_pos h3] at h
      exact Or.inr ⟨h3, h⟩
    · rw [if_neg h3] at h
      exact absurd h (by simp)

/-- Case analysis of a failed pattern attempt. -/
theorem tryHere_none_cases {w : List Char} (h : tryHere w = none) :
    (matchCI ovcLabel w = true → scanNum (w.drop ovcLabel.length) = none) ∧
    (matchCI csLabel w = true → scanNum (w.drop csLabel.length) = none) := by
  rw [tryHere] at h
  by_cases h1 : matchCI ovcLabel w
  · rw [if_pos h1] at h
    cases h2 : scanNum (w.drop ovcLabel.length) with
    | some k => rw [h2] at h; exact absurd h (by simp)
    | none =>
      rw [h2] at h
      refine ⟨fun _ => rfl, fun h3 => ?_⟩
      rw [if_pos h3] at h
      exact h
  · rw [if_neg h1] at h
    refine ⟨fun h3 => absurd h3 (by simp [h1]), fun h3 => ?_⟩
    rw [if_pos h3] at h
    exact h

theorem tryHere_ovc_some {w : List Char} {m : Nat}
    (h1 : matchCI ovcLabel w = true)
    (h2 : scanNum (w.drop ovcLabel.length) = some m) : tryHere w = some m := by
  rw [tryHere, if_pos h1, h2]

theorem tryHere_cs_some {w : List Char} {m : Nat}
    (h0 : matchCI ovcLabel w = false) (h1 : matchCI csLabel w = true)
    (h2 : scanNum (w.drop csLabel.length) = some m) : tryHere w = some m := by
  rw [tryHere, h0, if_neg (by simp), if_pos h1, h2]

/-- The two label alternatives disagree on their first letter, so a text
matching the short label cannot match the long one, even after appending. -/
theorem ovc_no_match_of_cs {v : List Char} (h : matchCI csLabel v = true)
    (t : List Char) : matchCI ovcLabel (v ++ t) = false := by
  obtain ⟨p, pt, c0, v', hpat, hv, hlow⟩ := matchCI_heads h (by decide)
  have h9 : 'c' :: "redibility score".toList = p :: pt := hpat
  have hp : p = 'c' := ((List.cons_eq_cons.1 h9).1).symm
  subst hv
  rw [List.cons_append]
  rw [show ovcLabel = 'o' :: "verall credibility score".toList from rfl, matchCI]
  have hne : ¬ c0.toLower = 'o' := by
    rw [hlow, hp]
    decide
  rw [if_neg hne]

theorem tryHere_append_some {v t : List Char} {m : Nat} (h : tryHere v = some m) :
    tryHere (v ++ t) = some m := by
  rcases tryHere_some_cases h with ⟨h1, h2⟩ | ⟨h1, h2⟩
  · have h1' := matchCI_append_true t h1
    have hle : ovcLabel.length ≤ v.length := matchCI_le_length h1
    have hdrop : (v ++ t).drop ovcLabel.length = v.drop ovcLabel.length ++ t :=
      List.drop_append_of_le_length hle
    exact tryHere_ovc_some h1' (by rw [hdrop]; exact scanNum_append_some h2)
  · have h0 := ovc_no_match_of_cs h1 t
    have h1' := matchCI_append_true t h1
    have hle : csLabel.length ≤ v.length := matchCI_le_length h1
    have hdrop : (v ++ t).drop csLabel.length = v.drop csLabel.length ++ t :=
      List.drop_append_of_le_length hle
    exact tryHere_cs_some h0 h1' (by rw [hdrop]; exact scanNum_append_some h2)

/-- If the pattern attempt at the head of `s` failed, no appended text can
make the post-label scan succeed as long as a full digit-run-`/10` shape
already sits somewhere past the label inside `s` (the scan would have found
it, or a newline blocks it in both versions). -/
theorem scan_region_contra {s t : List Char} {L j m : Nat}
    (hLs : L ≤ s.length)
    (hnone : scanNum (s.drop L) = none)
    (hsome : scanNum ((s ++ t).drop L) = some m)
    (hshape : ∃ a d ds z, s.drop j = a ++ d :: (ds ++ '/' :: '1' :: '0' :: z)
      ∧ d.isDigit = true ∧ (∀ x ∈ ds, x.isDigit = true))
    (hLj : L ≤ j) : False := by
  rw [List.drop_append_of_le_length hLs] at hsome
  by_cases hmem : '\n' ∈ s.drop L
  · rw [scanNum_append_none hnone hmem] at hsome
    exact absurd hsome (by simp)
  · obtain ⟨a, d, ds, z, hj, hd, hds⟩ := hshape
    have hsj : s.drop j = (s.drop L).drop (j - L) := by
      rw [List.drop_drop]
      congr 1
      omega
    have hdecomp : s.drop L
        = ((s.drop L).take (j - L) ++ a) ++ d :: (ds ++ '/' :: '1' :: '0' :: z) := by
      conv_lhs => rw [← List.take_append_drop (j - L) (s.drop L)]
      rw [← hsj, hj, List.append_assoc]
    have hA : ∀ x ∈ (s.drop L).take (j - L) ++ a, x ≠ '\n' := by
      intro x hx he
      subst he
      exact hmem (by rw [hdecomp]; exact List.mem_append.2 (Or.inl hx))
    obtain ⟨m', hm'⟩ := scanNum_some_of_shape _ ds z hA hd hds
    rw [← hdecomp] at hm'
    rw [hm'] at hnone
    exact absurd hnone (by simp)

/-- A text short enough to sit inside the long label consists of letters
and spaces only, so it cannot contain the `/` that a successful inner scan
requires. -/
theorem straddle_contra {s t : List Char}
    (ho1 : matchCI ovcLabel (s ++ t) = true)
    (hlen : s.length ≤ ovcLabel.length)
    (hslash : '/' ∈ s) : False := by
  have h1 := matchCI_toLower_mem ho1 hlen '/' hslash
  exact absurd h1 (by decide)

/-- The long label has no `c` among its second to eighth characters, so a
suffix of a long-label match starting there cannot match the short label. -/
theorem ovc_mid_contra {s v : List Char} {k : Nat}
    (hk1 : 1 ≤ k) (hk7 : k ≤ 7)
    (hov : matchCI ovcLabel s = true)
    (hv : v = s.drop k)
    (hcs : matchCI csLabel v = true) : False := by
  have hdk := matchCI_drop_true hov k
  rw [← hv] at hdk
  obtain ⟨p, pt, c0, v', hpat, hveq, hlow⟩ := matchCI_heads hcs (by decide)
  have h9 : 'c' :: "redibility score".toList = p :: pt := hpat
  have hp : p = 'c' := ((List.cons_eq_cons.1 h9).1).symm
  have hne : ovcLabel.drop k ≠ [] := by
    have h5 : (ovcLabel.drop k).length = 25 - k := by
      rw [List.length_drop, ovcLabel_len]
    intro he
    rw [he] at h5
    simp at h5
    omega
  obtain ⟨q, qt, c1, v1, hqat, hveq2, hlow2⟩ := matchCI_heads hdk hne
  have hc01 : c0 = c1 := by
    rw [hveq] at hveq2
    exact (List.cons_eq_cons.1 hveq2).1
  have hq : q = 'c' := by
    rw [← hc01] at hlow2
    rw [hlow, hp] at hlow2
    exact hlow2.symm
  have key : ∀ kk, kk < 8 → 1 ≤ kk → ¬ (ovcLabel.drop kk).head? = some 'c' := by decide
  exact key k (by omega) hk1 (by rw [hqat, hq]; rfl)

/-- A failed pattern attempt at the head stays failed after appending,
provided the search succeeds somewhere strictly later in the text. -/
theorem tryHere_cons_append_none {c : Char} {cs t : List Char} {n : Nat}
    (h0 : tryHere (c :: cs) = none) (hin : scoreSearch cs = some n) :
    tryHere ((c :: cs) ++ t) = none := by
  by_contra hne
  obtain ⟨m, hm⟩ := Option.ne_none_iff_exists'.1 hne
  obtain ⟨u, v, huv, htv, _⟩ := scoreSearch_decomp hin
  have hts := tryHere_none_cases h0
  have hv : v = (c :: cs).drop (u.length + 1) := by
    rw [huv, List.drop_succ_cons]
    exact (List.drop_left' rfl).symm
  have hvlen : v.length ≤ cs.length := by
    rw [huv, List.length_append]
    omega
  -- inner analysis: which label matched at v, and the digit-run shape there
  have inner : ∃ Lin, (Lin = 17 ∨ Lin = 25) ∧
      Lin ≤ v.length ∧
      (Lin = 17 → matchCI csLabel v = true) ∧
      (∃ a d ds z, v.drop Lin = a ++ d :: (ds ++ '/' :: '1' :: '0' :: z)
        ∧ d.isDigit = true ∧ (∀ x ∈ ds, x.isDigit = true)) := by
    rcases tryHere_some_cases htv with ⟨hi1, hi2⟩ | ⟨hi1, hi2⟩
    · refine ⟨25, Or.inr rfl, ?_, ?_, ?_⟩
      · have := matchCI_le_length hi1
        rwa [ovcLabel_len] at this
      · intro h17
        omega
      · rw [ovcLabel_len] at hi2
        obtain ⟨a, d, ds, z, hsh, _, hd1, hds1, _⟩ := scanNum_shape_of_some hi2
        exact ⟨a, d, ds, z, hsh, hd1, hds1⟩
    · refine ⟨17, Or.inl rfl, ?_, fun _ => hi1, ?_⟩
      · have := matchCI_le_length hi1
        rwa [csLabel_len] at this
      · rw [csLabel_len] at hi2
        obtain ⟨a, d, ds, z, hsh, _, hd1, hds1, _⟩ := scanNum_shape_of_some hi2
        exact ⟨a, d, ds, z, hsh, hd1, hds1⟩
  obtain ⟨Lin, hLin1725, hLinv, hLincs, ⟨a, d, ds, z, hj, hd2, hds⟩⟩ := inner
  have hvd : v.drop Lin = (c :: cs).drop (u.length + 1 + Lin) := by
    rw [hv, List.drop_drop]
  have hslash : '/' ∈ (c :: cs) := by
    have h1 : '/' ∈ v.drop Lin := by
      rw [hj]
      simp
    have h2 : '/' ∈ v := List.mem_of_mem_drop h1
    have h3 : '/' ∈ cs := by
      rw [huv]
      exact List.mem_append.2 (Or.inr h2)
    exact List.mem_cons_of_mem c h3
  have hshape : ∃ a' d' ds' z',
      (c :: cs).drop (u.length + 1 + Lin) = a' ++ d' :: (ds' ++ '/' :: '1' :: '0' :: z')
      ∧ d'.isDigit = true ∧ (∀ x ∈ ds', x.isDigit = true) :=
    ⟨a, d, ds, z, by rw [← hvd, hj], hd2, hds⟩
  rcases tryHere_some_cases hm with ⟨ho1, ho2⟩ | ⟨ho1, ho2⟩
  · -- appended text matched the long label at the head
    by_cases hms : matchCI ovcLabel (c :: cs) = true
    · have hnone := hts.1 hms
      have hLs : ovcLabel.length ≤ (c :: cs).length := matchCI_le_length hms
      by_cases hj25 : ovcLabel.length ≤ u.length + 1 + Lin
      · exact scan_region_contra hLs hnone ho2 hshape hj25
      · rw [ovcLabel_len] at hj25
        have hLin17 : Lin = 17 := by omega
        have hk7 : u.length + 1 ≤ 7 := by omega
        exact ovc_mid_contra (by omega) hk7 hms hv (hLincs hLin17)
    · have hlen : (c :: cs).length < ovcLabel.length := by
        by_contra hc2
        rw [matchCI_append_left t (by omega)] at ho1
        exact hms ho1
      rcases hLin1725 with hLin | hLin
      · exact straddle_contra ho1 (by omega) hslash
      · rw [ovcLabel_len] at hlen
        rw [hLin] at hLinv
        simp only [List.length_cons] at hlen
        omega
  · -- appended text matched the short label at the head
    by_cases hms : matchCI csLabel (c :: cs) = true
    · have hnone := hts.2 hms
      have hLs : csLabel.length ≤ (c :: cs).length := matchCI_le_length hms
      have hj17 : csLabel.length ≤ u.length + 1 + Lin := by
        rw [csLabel_len]
        omega
      exact scan_region_contra hLs hnone ho2 hshape hj17
    · have hlen : (c :: cs).length < csLabel.length := by
        by_contra hc2
        rw [matchCI_append_left t (by omega)] at ho1
        exact hms ho1
      rw [csLabel_len] at hlen
      simp only [List.length_cons] at hlen
      omega

/-- A successful search keeps its result when any text is appended. -/
theorem scoreSearch_append {s t : List Char} {n : Nat}
    (h : scoreSearch s = some n) : scoreSearch (s ++ t) = some n := by
  induction s with
  | nil => simp [scoreSearch] at h
  | cons c cs ih =>
    rw [scoreSearch] at h
    rw [List.cons_append, scoreSearch]
    split at h
    · rename_i m heq
      obtain rfl := Option.some.inj h
      have h2 : tryHere (c :: (cs ++ t)) = some m := tryHere_append_some heq
      rw [h2]
    · rename_i heq
      have h2 : tryHere (c :: (cs ++ t)) = none := tryHere_cons_append_none heq h
      rw [h2]
      exact ih h

/-- Non-digit, non-newline characters are skipped by the scan. -/
theorem scanNum_skip {mid : List Char} (tail : List Char)
    (h : ∀ c ∈ mid, c ≠ '\n' ∧ c.isDigit = false) :
    scanNum (mid ++ tail) = scanNum tail := by
  induction mid with
  | nil => rfl
  | cons c mid' ih =>
    obtain ⟨hnl, hd⟩ := h c (List.mem_cons_self c mid')
    rw [List.cons_append, scanNum, if_neg hnl, if_neg (by simp [hd])]
    exact ih fun x hx => h x (List.mem_cons_of_mem c hx)

/-- At a digit run directly followed by `/10`, the scan returns the value
of the whole run. -/
theorem scanNum_hit {d : Char} (ds rest : List Char)
    (hd : d.isDigit = true) (hds : ∀ c ∈ ds, c.isDigit = true) :
    scanNum (d :: (ds ++ '/' :: '1' :: '0' :: rest)) = some (digitsToNat (d :: ds)) := by
  rw [scanNum]
  have hdnl : ¬ d = '\n' := by
    intro he
    rw [he] at hd
    simp at hd
  rw [if_neg hdnl, if_pos hd]
  have hdw : (ds ++ '/' :: '1' :: '0' :: rest).dropWhile Char.isDigit
      = '/' :: '1' :: '0' :: rest := by
    rw [List.dropWhile_append_of_pos hds, List.dropWhile_cons_of_neg (by decide)]
  have htw : (ds ++ '/' :: '1' :: '0' :: rest).takeWhile Char.isDigit = ds := by
    rw [List.takeWhile_append_of_pos hds, List.takeWhile_cons_of_neg (by decide)]
    simp
  rw [hdw, htw]
  rfl

theorem tryHere_cs_eq (x : List Char) :
    tryHere ("Credibility Score".toList ++ x) = scanNum x := by
  rw [tryHere]
  rw [show matchCI ovcLabel ("Credibility Score".toList ++ x) = false from rfl]
  rw [if_neg (by simp)]
  rw [show matchCI csLabel ("Credibility Score".toList ++ x) = true from rfl]
  rw [if_pos rfl]
  rw [show ("Credibility Score".toList ++ x).drop csLabel.length = x from
    List.drop_left' rfl]

theorem tryHere_ovc_eq {x : List Char} {k : Nat} (h : scanNum x = some k) :
    tryHere ("Overall Credibility Score".toList ++ x) = some k := by
  rw [tryHere]
  rw [show matchCI ovcLabel ("Overall Credibility Score".toList ++ x) = true from rfl]
  rw [if_pos rfl]
  rw [show ("Overall Credibility Score".toList ++ x).drop ovcLabel.length = x from
    List.drop_left' rfl]
  rw [h]

theorem scoreSearch_cs_head {x : List Char} {k : Nat} (h : scanNum x = some k) :
    scoreSearch ("Credibility Score".toList ++ x) = some k := by
  rw [show ("Credibility Score".toList ++ x)
      = 'C' :: ("redibility Score".toList ++ x) from rfl]
  rw [scoreSearch]
  have h2 : tryHere ('C' :: ("redibility Score".toList ++ x)) = some k := by
    have h3 := tryHere_cs_eq x
    rw [h] at h3
    exact h3
  rw [h2]

theorem scoreSearch_ovc_head {x : List Char} {k : Nat} (h : scanNum x = some k) :
    scoreSearch ("Overall Credibility Score".toList ++ x) = some k := by
  rw [show ("Overall Credibility Score".toList ++ x)
      = 'O' :: ("verall Credibility Score".toList ++ x) from rfl]
  rw [scoreSearch]
  have h2 : tryHere ('O' :: ("verall Credibility Score".toList ++ x)) = some k :=
    tryHere_ovc_eq h
  rw [h2]

/-- A case-insensitive match only examines the pattern's length of
characters, so it also holds on that prefix alone. -/
theorem matchCI_take {pat v : List Char} (h : matchCI pat v = true) :
    matchCI pat (v.take pat.length) = true := by
  induction pat generalizing v with
  | nil => simp [matchCI]
  | cons p ps ih =>
    cases v with
    | nil => simp [matchCI] at h
    | cons c v' =>
      rw [matchCI] at h
      by_cases hc : c.toLower = p
      · rw [if_pos hc] at h
        rw [List.length_cons, List.take_succ_cons, matchCI, if_pos hc]
        exact ih h
      · rw [if_neg hc] at h
        exact absurd h (by simp)

/-- If the pattern attempt succeeds at some suffix, the left-to-right
search over the whole text succeeds with some value (the attempt at that
suffix, or an earlier one). -/
theorem scoreSearch_suffix_success (u v : List Char)
    (h : ∃ m, tryHere v = some m) : ∃ n, scoreSearch (u ++ v) = some n := by
  induction u with
  | nil =>
    obtain ⟨m, hm⟩ := h
    have hv : v ≠ [] := by
      intro he
      rw [he, show tryHere [] = none from rfl] at hm
      exact absurd hm (by simp)
    obtain ⟨c, v', rfl⟩ := List.exists_cons_of_ne_nil hv
    refine ⟨m, ?_⟩
    rw [List.nil_append, scoreSearch, hm]
  | cons c u' ih =>
    rw [List.cons_append, scoreSearch]
    cases h1 : tryHere (c :: (u' ++ v)) with
    | some k => exact ⟨k, rfl⟩
    | none =>
      obtain ⟨n, hn⟩ := ih
      exact ⟨n, hn⟩

example : scoreSearch ("Credibility Score: 15/10".toList) = some 15 := by decide

example : scoreSearch ("Credibility Score\n7/10".toList) = none := by decide

example : subItalic (subBold ("**bold *and* more**".toList))
    = "<strong>bold <em>and</em> more</strong>".toList := by decide

example : renderBody ("- a\n\n- b".toList)
    = [ulOpen, liElem ['a'], ulClose, ulOpen, liElem ['b'], ulClose] := by decide

example : renderSection ("para1\n\npara2".toList)
    = [pElem ("para1\n\npara2".toList)] := by decide

example : scoreSearch ("Overall Credibility Score: blah blah 7/10".toList) = some 7 := by decide

example : scoreSearch ("Credibility Score 5\nCredibility Score 7/10".toList) = some 7 := by decide

example : splitSecs ("1. **A**: x\n2. **B**: y".toList)
    = ["1. **A**: x".toList, "2. **B**: y".toList] := by decide

example : renderBody ("para1\n- item1\n- item2\npara2".toList)
    = [pElem ("para1".toList), ulOpen, liElem ("item1".toList),
       liElem ("item2".toList), ulClose, pElem ("para2".toList)] := by decide

example : renderBody ("- a\n-5 degrees".toList)
    = [ulOpen, liElem ['a'], liElem ("5 degrees".toList), ulClose] := by decide

example : matchSection ("1. **A**: x".toList) = some ⟨['1'], ['A'], ['x']⟩ := by decide

example : (format_gemini_response ("1. **A**: x\n2. **B**: y".toList)).1
    = (divOpen ++ h3Elem ['1'] ['A'] ++ pElem ['x'] ++ divClose
        ++ divOpen ++ h3Elem ['2'] ['B'] ++ pElem ['y'] ++ divClose) := by decide

/-! ### Claim theorems -/

/-- Claim C1, counterexample: for the body `- a\n\n- b` the line walk emits
two separate single-item list blocks, not a single list block holding both
items — the blank line closed the first list. -/
theorem C1_counterexample :
    (renderBody ("- a\n\n- b".toList)).count ulOpen = 2 ∧
    renderBody ("- a\n\n- b".toList)
      = [ulOpen, liElem ['a'], ulClose, ulOpen, liElem ['b'], ulClose] := by
  constructor
  · decide
  · decide

/-- Claim C1, amended: in the line walk a blank line is not skipped while a
list is open; it closes the open list (emitting no paragraph element), so a
later bullet line starts a fresh list block. -/
theorem C1_blank_line_closes_list (l : List Char) (ls : List (List Char))
    (h : stripWs l = []) :
    listWalk true (l :: ls) = ulClose :: listWalk false ls := by
  rw [listWalk, h]
  simp [isBulletLine, glyphStart]

/-- Witness for `C1_blank_line_closes_list` at the single blank line
consisting of one space. -/
theorem C1_witness :
    stripWs [' '] = [] ∧ listWalk true [[' ']] = ulClose :: listWalk false [] :=
  ⟨by decide, C1_blank_line_closes_list [' '] [] (by decide)⟩

/-- Claim C2, counterexample: with a newline between the label and the
digits the score pattern cannot match (the regular expression is compiled
without DOTALL, so `.` never crosses a line boundary), and the extractor
returns no score rather than 7. -/
theorem C2_counterexample :
    scoreSearch ("Credibility Score:\n7/10".toList) = none := by decide

/-- Claim C2, amended: for every raw text in which a case-insensitive
occurrence of either label (any mixture of cases, at any position) is
followed, with arbitrary intervening non-newline text on the same line, by
a token `<digits>/10`, the extractor returns an integer (part 1); whatever
integer it returns is the digit-run value of a genuine occurrence of this
same-line shape, at the earliest start position where the pattern attempt
succeeds — "that first N" (part 2); and when the occurrence starts the
text and the intervening text holds no digits, the returned value is
exactly that run's value (part 3). A newline between the label and the
digits defeats the match. -/
theorem C2_same_line_scan :
    (∀ pre lab mid ds rest : List Char,
      (isCaseVariant csLabel lab ∨ isCaseVariant ovcLabel lab) →
      (∀ c ∈ mid, c ≠ '\n') → ds ≠ [] → (∀ c ∈ ds, c.isDigit = true) →
      ∃ n, scoreSearch (pre ++ (lab ++ (mid ++ (ds ++ '/' :: '1' :: '0' :: rest))))
        = some n) ∧
    (∀ (text : List Char) (n : Nat), scoreSearch text = some n →
      ∃ pre lab mid d ds rest,
        text = pre ++ (lab ++ (mid ++ d :: (ds ++ '/' :: '1' :: '0' :: rest)))
        ∧ (isCaseVariant csLabel lab ∨ isCaseVariant ovcLabel lab)
        ∧ (∀ c ∈ mid, c ≠ '\n') ∧ d.isDigit = true ∧ (∀ c ∈ ds, c.isDigit = true)
        ∧ n = digitsToNat (d :: ds)
        ∧ ∀ pre2 suf2, text = pre2 ++ suf2 → pre2.length < pre.length →
            tryHere suf2 = none) ∧
    (∀ lab mid ds rest : List Char,
      (isCaseVariant csLabel lab ∨ isCaseVariant ovcLabel lab) →
      (∀ c ∈ mid, c ≠ '\n' ∧ c.isDigit = false) →
      ds ≠ [] → (∀ c ∈ ds, c.isDigit = true) →
      scoreSearch (lab ++ (mid ++ (ds ++ '/' :: '1' :: '0' :: rest)))
        = some (digitsToNat ds)) := by
  refine ⟨?_, ?_, ?_⟩
  · intro pre lab mid ds rest hvar hmid hne hds
    obtain ⟨d, ds', rfl⟩ := List.exists_cons_of_ne_nil hne
    obtain ⟨m, hsc⟩ := scanNum_some_of_shape mid ds' rest hmid
      (hds d (List.mem_cons_self d ds'))
      (fun c hc => hds c (List.mem_cons_of_mem d hc))
    refine scoreSearch_suffix_success pre _ ?_
    rcases hvar with ⟨h1, h2⟩ | ⟨h1, h2⟩
    · refine ⟨m, tryHere_cs_some (ovc_no_match_of_cs h1 _)
        (matchCI_append_true _ h1) ?_⟩
      rw [List.drop_left' h2]
      exact hsc
    · refine ⟨m, tryHere_ovc_some (matchCI_append_true _ h1) ?_⟩
      rw [List.drop_left' h2]
      exact hsc
  · intro text n h
    obtain ⟨u, v, huv, htv, hmin⟩ := scoreSearch_decomp h
    rcases tryHere_some_cases htv with ⟨h1, h2⟩ | ⟨h1, h2⟩
    · have hL : ovcLabel.length ≤ v.length := matchCI_le_length h1
      obtain ⟨a, d, ds, z, hsh, ha, hd, hds, hval⟩ := scanNum_shape_of_some h2
      refine ⟨u, v.take ovcLabel.length, a, d, ds, z, ?_,
        Or.inr ⟨matchCI_take h1, List.length_take_of_le hL⟩, ha, hd, hds, hval,
        fun pre2 suf2 he hlt => hmin pre2 suf2 (by rw [huv] at he ⊢; exact he) hlt⟩
      rw [huv]
      congr 1
      conv_lhs => rw [← List.take_append_drop ovcLabel.length v]
      rw [hsh]
    · have hL : csLabel.length ≤ v.length := matchCI_le_length h1
      obtain ⟨a, d, ds, z, hsh, ha, hd, hds, hval⟩ := scanNum_shape_of_some h2
      refine ⟨u, v.take csLabel.length, a, d, ds, z, ?_,
        Or.inl ⟨matchCI_take h1, List.length_take_of_le hL⟩, ha, hd, hds, hval,
        fun pre2 suf2 he hlt => hmin pre2 suf2 (by rw [huv] at he ⊢; exact he) hlt⟩
      rw [huv]
      congr 1
      conv_lhs => rw [← List.take_append_drop csLabel.length v]
      rw [hsh]
  · intro lab mid ds rest hvar hmid hne hds
    obtain ⟨d, ds', rfl⟩ := List.exists_cons_of_ne_nil hne
    have hsc : scanNum (mid ++ ((d :: ds') ++ '/' :: '1' :: '0' :: rest))
        = some (digitsToNat (d :: ds')) := by
      rw [scanNum_skip _ hmid]
      exact scanNum_hit ds' rest (hds d (List.mem_cons_self d ds'))
        fun c hc => hds c (List.mem_cons_of_mem d hc)
    have hlab : lab ≠ [] := by
      rcases hvar with ⟨_, h2⟩ | ⟨_, h2⟩ <;>
        (intro he; rw [he] at h2; exact absurd h2 (by decide))
    obtain ⟨c0, lab', rfl⟩ := List.exists_cons_of_ne_nil hlab
    have hth : tryHere ((c0 :: lab') ++ (mid ++ ((d :: ds') ++ '/' :: '1' :: '0' :: rest)))
        = some (digitsToNat (d :: ds')) := by
      rcases hvar with ⟨h1, h2⟩ | ⟨h1, h2⟩
      · refine tryHere_cs_some (ovc_no_match_of_cs h1 _)
          (matchCI_append_true _ h1) ?_
        rw [List.drop_left' h2]
        exact hsc
      · refine tryHere_ovc_some (matchCI_append_true _ h1) ?_
        rw [List.drop_left' h2]
        exact hsc
    rw [List.cons_append, scoreSearch]
    have hth2 : tryHere (c0 :: (lab' ++ (mid ++ ((d :: ds') ++ '/' :: '1' :: '0' :: rest))))
        = some (digitsToNat (d :: ds')) := hth
    rw [hth2]

/-- Witness for `C2_same_line_scan`: a mixed-case label after a prefix with
digit-holding intervening text (part 1), and an upper-case label heading
the text with digit-free intervening text, pinned to the value 8
(part 3). -/
theorem C2_witness :
    isCaseVariant csLabel ("cRediBility sCore".toList) ∧
    (∃ n, scoreSearch ("intro ".toList ++ ("cRediBility sCore".toList ++
        (" of 9: ".toList ++ (['7'] ++ '/' :: '1' :: '0' :: " end".toList))))
      = some n) ∧
    scoreSearch ("CREDIBILITY SCORE".toList ++ (" was rated ".toList ++
        (['8'] ++ '/' :: '1' :: '0' :: " overall".toList))) = some 8 :=
  ⟨by decide,
    C2_same_line_scan.1 ("intro ".toList) ("cRediBility sCore".toList)
      (" of 9: ".toList) ['7'] (" end".toList)
      (Or.inl (by decide)) (by decide) (by decide) (by decide),
    C2_same_line_scan.2.2 ("CREDIBILITY SCORE".toList) (" was rated ".toList)
      ['8'] (" overall".toList)
      (Or.inl (by decide)) (by decide) (by decide) (by decide)⟩

/-- Claim C3, counterexample: an unmatched candidate with two blank-line
separated paragraphs renders as one paragraph element holding both (not
two), an unmatched candidate with bullet lines renders as one paragraph
element (no list block), while the matched branch's body rendering would
have produced two paragraph elements for the same text. -/
theorem C3_counterexample :
    renderSection ("para1\n\npara2".toList) = [pElem ("para1\n\npara2".toList)] ∧
    renderSection ("- item1\n- item2".toList) = [pElem ("- item1\n- item2".toList)] ∧
    renderBody ("para1\n\npara2".toList) = [pElem ("para1".toList), pElem ("para2".toList)] := by
  refine ⟨by decide, by decide, by decide⟩

/-- Claim C3, amended: the unmatched branch does not share the body
rendering of the matched branch; it only applies the two emphasis
substitutions to the stripped candidate and wraps the whole result in a
single paragraph element (or emits nothing when it is empty), with no
bullet detection and no blank-line splitting. -/
theorem C3_unmatched_whole_paragraph (s : List Char) (h : matchSection s = none) :
    renderSection s =
      if (subItalic (subBold (stripWs s))).isEmpty then []
      else [pElem (subItalic (subBold (stripWs s)))] := by
  rw [renderSection, h]

/-- Witness for `C3_unmatched_whole_paragraph` on a marker-free
paragraph. -/
theorem C3_witness :
    matchSection ("Some freeform paragraph with no markers.".toList) = none ∧
    renderSection ("Some freeform paragraph with no markers.".toList) =
      if (subItalic (subBold (stripWs ("Some freeform paragraph with no markers.".toList)))).isEmpty
      then []
      else [pElem (subItalic (subBold (stripWs ("Some freeform paragraph with no markers.".toList))))] :=
  ⟨by decide, C3_unmatched_whole_paragraph _ (by decide)⟩

/-- Claim C4: the Response Formatter is a total function — for every input
it returns a pair of a markup string and an optional score — and on the
empty string it returns empty markup and no score. -/
theorem C4_total_and_empty :
    (∀ raw : List Char, ∃ html score, format_gemini_response raw = (html, score)) ∧
    format_gemini_response ("".toList) = ([], none) :=
  ⟨fun raw => ⟨(format_gemini_response raw).1, (format_gemini_response raw).2, rfl⟩,
    by decide⟩

/-- Claim C5: the extractor applies no range validation — `15/10` yields 15
(outside the nominal range), which also reaches the formatter's score
output — and a text with no recognizable score phrase yields no score. -/
theorem C5_no_range_validation :
    scoreSearch ("Credibility Score: 15/10".toList) = some 15 ∧
    ¬ (15 : Nat) ≤ 10 ∧
    (format_gemini_response ("Credibility Score: 15/10".toList)).2 = some 15 ∧
    scoreSearch ("Overall Credibility Score: 999/10".toList) = some 999 ∧
    scoreSearch ("The article seems factual.".toList) = none := by
  refine ⟨by decide, by decide, by decide, by decide, by decide⟩

/-- Claim C6: double-marker conversion runs before single-marker
conversion, so `**bold *and* more**` yields one strong element whose inner
text holds an emphasis element, and the unmatched rendering branch emits it
as such. -/
theorem C6_emphasis_precedence :
    subItalic (subBold ("**bold *and* more**".toList))
      = "<strong>bold <em>and</em> more</strong>".toList ∧
    renderSection ("**bold *and* more**".toList)
      = [pElem ("<strong>bold <em>and</em> more</strong>".toList)] := by
  refine ⟨by decide, by decide⟩

/-- Claim C7: rendering concatenates the sections in input order — in
general the output is the in-order flattening of the per-section fragments,
and for `1. **A**: x\n2. **B**: y` the output is A's whole container
followed by B's. -/
theorem C7_section_order :
    (∀ secs : List (List Char), renderAll secs
      = (secs.map fun sec =>
          if (stripWs sec).isEmpty then [] else renderSection sec).flatten) ∧
    (format_gemini_response ("1. **A**: x\n2. **B**: y".toList)).1
      = (divOpen ++ h3Elem ['1'] ['A'] ++ pElem ['x'] ++ divClose)
        ++ (divOpen ++ h3Elem ['2'] ['B'] ++ pElem ['y'] ++ divClose) := by
  constructor
  · intro secs
    induction secs with
    | nil => rfl
    | cons s ss ih =>
      rw [renderAll] at ih ⊢
      simp only [List.foldr_cons, List.map_cons, List.flatten_cons]
      rw [ih]
  · decide

/-- Claim C8: score extraction is pure, hence scanning twice yields the
same optional integer, and a successful extraction keeps its presence and
value when any further text is appended after the matched phrase. -/
theorem C8_idempotent_append_stable :
    (∀ s : List Char, scoreSearch s = scoreSearch s) ∧
    (∀ (s t : List Char) (n : Nat),
      scoreSearch s = some n → scoreSearch (s ++ t) = some n) :=
  ⟨fun _ => rfl, fun _ t _ h => scoreSearch_append (t := t) h⟩

/-- Witness for `C8_idempotent_append_stable` on a matched phrase with text
appended after it. -/
theorem C8_witness :
    scoreSearch ("Credibility Score 7/10".toList) = some 7 ∧
    scoreSearch ("Credibility Score 7/10".toList ++ " appended remark".toList) = some 7 :=
  ⟨by decide,
    C8_idempotent_append_stable.2 ("Credibility Score 7/10".toList)
      (" appended remark".toList) 7 (by decide)⟩

/-- Claim C9: when the remote call fails, credibility analysis returns the
error markup fragment with no score and chat returns the apologetic
message; in the embedding the failure is a value, not a propagating
exception. -/
theorem C9_failure_degrades (e : List Char) :
    analyze_media_credibility (Except.error e) = (errorFragment e, none) ∧
    chat_with_ai (Except.error e) = sorryMsg e :=
  ⟨rfl, rfl⟩

/-- Claim C10: any line whose stripped form begins with a bare hyphen —
no following space required — is treated by the line walk as a bullet item,
never a paragraph: the leading bullet-glyph/hyphen/space characters are
stripped and the remainder becomes a list item. -/
theorem C10_bare_hyphen_is_bullet (inL : Bool) (l : List Char)
    (ls : List (List Char)) (r : List Char) (h : stripWs l = '-' :: r) :
    listWalk inL (l :: ls) =
      (if inL then [] else [ulOpen]) ++
      (if (stripWs (lstripBul ('-' :: r))).isEmpty then []
       else [liElem (stripWs (lstripBul ('-' :: r)))]) ++
      listWalk true ls := by
  rw [listWalk, h]
  have hb : isBulletLine ('-' :: r) = true := by
    simp [isBulletLine]
  rw [hb]
  simp

/-- Witness for `C10_bare_hyphen_is_bullet` on the line `-5 degrees` with a
list already open. -/
theorem C10_witness :
    stripWs ("-5 degrees".toList) = '-' :: "5 degrees".toList ∧
    listWalk true ["-5 degrees".toList] =
      (if true then [] else [ulOpen]) ++
      (if (stripWs (lstripBul ('-' :: "5 degrees".toList))).isEmpty then []
       else [liElem (stripWs (lstripBul ('-' :: "5 degrees".toList)))]) ++
      listWalk true [] :=
  ⟨by decide,
    C10_bare_hyphen_is_bullet true ("-5 degrees".toList) [] ("5 degrees".toList)
      (by decide)⟩

end Koti
